import Mathlib

/-!
Verification of the Boys-surface mesh generator (boy_surface.py).

The development shallowly embeds the core of `BoysSurfaceGenerator`:
the constructor validation, the Bryant-Kusner evaluator `_xyz`, and the
vertex / face assembly of `build`.  Machine floats are modelled by exact
rationals (for the validation arithmetic) and by real / complex numbers
(for the evaluator); the face-index combinatorics is over `Nat` exactly
as in the source.
-/

namespace BoysSurface

/-! ## Constructor validation (`BoysSurfaceGenerator.__init__`) -/

/-- Python built-in `round` on an exact rational: round half to even. -/
def pyRound (q : ℚ) : ℤ :=
  if q - ⌊q⌋ < 1/2 then ⌊q⌋
  else if q - ⌊q⌋ > 1/2 then ⌊q⌋ + 1
  else if ⌊q⌋ % 2 = 0 then ⌊q⌋ else ⌊q⌋ + 1

/-- Message of the `ValueError` raised when `resolution < 2`. -/
def resolutionMsg : String := "resolution must be at least 2."

/-- Message of the `ValueError` raised for a bad angular count. -/
def nphiMsg : String := "ratio * resolution must be an even integer ≥ 4."

/-- The validated grid sizes stored on the generator instance. -/
structure Config where
  n_r : ℕ
  n_phi : ℕ
deriving DecidableEq

/-- Embedding of `BoysSurfaceGenerator.__init__`: check `resolution < 2`,
then compute `n_phi = ratio * resolution` and check
`n_phi < 4 or int(round(n_phi)) % 2`; on success store the integer sizes. -/
def validate (res : ℤ) ( rat : ℚ) : Except String Config :=
  if res < 2 then .error resolutionMsg
  else if rat * res < 4 ∨ pyRound (rat * res) % 2 ≠ 0 then .error nphiMsg
  else .ok ⟨res.toNat, (pyRound (rat * res)).toNat⟩

/-! ## Face assembly (`build`, step 3)

Indices are 1-based as in 3ds Max: `centre_idx = 1`,
`first_ring_start = 2`, ring `i` starts at `2 + i * n_phi`,
`outer_ring_start = 2 + (n_r - 2) * n_phi`, `half_turn = n_phi / 2`. -/

/-- Step 3-a of `build`: radial quad strips, two triangles per cell,
`for i in range(n_r - 2)`, `for j in range(ring)`. -/
def stripFaces (n_r n_phi : ℕ) : List (ℕ × ℕ × ℕ) :=
  (List.range (n_r - 2)).flatMap fun i =>
    (List.range n_phi).flatMap fun j =>
      let inner := 2 + i * n_phi
      let outer := inner + n_phi
      let a := inner + j
      let b := outer + j
      let c := outer + (j + 1) % n_phi
      let d := inner + (j + 1) % n_phi
      [(a, b, c), (a, c, d)]

/-- Step 3-b of `build`: the outer ring glued to itself with a half-turn
twist, `for j in range(ring)`, emitting `(an, b, a)` and `(an, bn, b)`. -/
def mobiusFaces (n_r n_phi : ℕ) : List (ℕ × ℕ × ℕ) :=
  (List.range n_phi).flatMap fun j =>
    let s := 2 + (n_r - 2) * n_phi
    let a := s + j
    let an := s + (j + 1) % n_phi
    let b := s + (j + n_phi / 2) % n_phi
    let bn := s + (j + n_phi / 2 + 1) % n_phi
    [(an, b, a), (an, bn, b)]

/-- Step 3-c of `build`: the central fan `(centre_idx, v3, v2)`. -/
def fanFaces (n_phi : ℕ) : List (ℕ × ℕ × ℕ) :=
  (List.range n_phi).map fun j =>
    (1, 2 + (j + 1) % n_phi, 2 + j)

/-- The complete face list of `build`, in emission order. -/
def faces (n_r n_phi : ℕ) : List (ℕ × ℕ × ℕ) :=
  stripFaces n_r n_phi ++ mobiusFaces n_r n_phi ++ fanFaces n_phi

/-! ## Bryant-Kusner evaluator (`BoysSurfaceGenerator._xyz`)

The NumPy complex128 arithmetic is modelled exactly over `ℂ`/`ℝ`. -/

/-- Denominator `w**6 + math.sqrt(5) * w**3 - 1` of the immersion. -/
noncomputable def denom (w : ℂ) : ℂ :=
  w ^ 6 + (Real.sqrt 5 : ℂ) * w ^ 3 - 1

/-- Auxiliary `g1 = -1.5 * np.imag(w * (1 - w**4) / denom)`. -/
noncomputable def g1 (w : ℂ) : ℝ :=
  -1.5 * (w * (1 - w ^ 4) / denom w).im

/-- Auxiliary `g2 = -1.5 * np.real(w * (1 + w**4) / denom)`. -/
noncomputable def g2 (w : ℂ) : ℝ :=
  -1.5 * (w * (1 + w ^ 4) / denom w).re

/-- Auxiliary `g3 = np.imag((1 + z6) / denom) - 0.5`. -/
noncomputable def g3 (w : ℂ) : ℝ :=
  ((1 + w ^ 6) / denom w).im - 0.5

/-- Common denominator `g = g1**2 + g2**2 + g3**2`. -/
noncomputable def gnorm (w : ℂ) : ℝ :=
  g1 w ^ 2 + g2 w ^ 2 + g3 w ^ 2

/-- The evaluator `_xyz`: returns `(g1 / g, g2 / g, g3 / g)`. -/
noncomputable def xyz (w : ℂ) : ℝ × ℝ × ℝ :=
  (g1 w / gnorm w, g2 w / gnorm w, g3 w / gnorm w)

/-! ## Grid and vertex assembly (`build`, steps 1-2)

`r_vals = np.linspace(0, 1, n_r)[1:]` gives radii `m / (n_r - 1)` for
`m = 1 .. n_r - 1`; `phi_vals` gives angles `2 * pi * k / n_phi` for
`k = 0 .. n_phi - 1`; `meshgrid(..., indexing="ij")` and `ravel` order
the grid ring-major (all angles of radius `m`, then the next radius). -/

/-- Grid sample `w = r * exp(i * phi)` with `r = m / (n_r - 1)` and
`phi = 2 * pi * k / n_phi`. -/
noncomputable def sample (n_r n_phi m k : ℕ) : ℂ :=
  Complex.ofReal ((m : ℝ) / ((n_r - 1 : ℕ) : ℝ)) *
    Complex.exp (Complex.I * Complex.ofReal (2 * Real.pi * k / n_phi))

/-- The vertex list of `build`: the centre vertex `_xyz(0)` prepended to
the evaluated grid, ring-major. 1-based Max index `v` is list position
`v - 1`. -/
noncomputable def vertices (n_r n_phi : ℕ) : List (ℝ × ℝ × ℝ) :=
  xyz 0 ::
    ((List.range (n_r - 1)).flatMap fun m =>
      (List.range n_phi).map fun k => xyz (sample n_r n_phi (m + 1) k))

/-- The pair handed to the host: vertex list and face list. -/
noncomputable def buildMesh (c : Config) : List (ℝ × ℝ × ℝ) × List (ℕ × ℕ × ℕ) :=
  (vertices c.n_r c.n_phi, faces c.n_r c.n_phi)

/-- Whole pipeline: validation then mesh construction; invalid input
yields the error and no mesh data at all. -/
noncomputable def generate (res : ℤ) ( rat : ℚ) :
    Except String (List (ℝ × ℝ × ℝ) × List (ℕ × ℕ × ℕ)) :=
  (validate res rat).map buildMesh

/-! ## Statements of the specification, written from its words

These definitions follow the specification text (ring-indexed vertex
naming, the opposite-index function, the face-validity predicate); the
theorems below compare them with the source-derived definitions. -/

/-- Spec notation: 1-based index of vertex `t` (taken modulo `n_phi`)
on ring `i` (0-based, ring 0 innermost). -/
def ringIdx (n_phi i t : ℕ) : ℕ :=
  2 + i * n_phi + t % n_phi

/-- Spec notation: `outer[t]`, vertex `t` on the outermost ring. -/
def outerIdx (n_r n_phi t : ℕ) : ℕ :=
  ringIdx n_phi (n_r - 2) t

/-- Modelled from the spec: the opposite-index function
`opposite(j) = (j + n_phi/2) mod n_phi` of the Mobius pairing. -/
def opposite (n_phi j : ℕ) : ℕ :=
  (j + n_phi / 2) % n_phi

/-- Modelled from the spec: for each `j`, the Mobius join emits the two
triangles `(outer[j+1], outer[j+half], outer[j])` and
`(outer[j+1], outer[j+half+1], outer[j+half])`, `half = n_phi/2`. -/
def mobiusSpecFaces (n_r n_phi : ℕ) : List (ℕ × ℕ × ℕ) :=
  (List.range n_phi).flatMap fun j =>
    [(outerIdx n_r n_phi (j + 1), outerIdx n_r n_phi (j + n_phi / 2),
        outerIdx n_r n_phi j),
     (outerIdx n_r n_phi (j + 1), outerIdx n_r n_phi (j + n_phi / 2 + 1),
        outerIdx n_r n_phi (j + n_phi / 2))]

/-- Modelled from the spec: each radial quad is split into
`(inner[j], outer[j], outer[j+1])` and `(inner[j], outer[j+1], inner[j+1])`
where `inner` is ring `i` and `outer` is ring `i+1`. -/
def stripSpecFaces (n_r n_phi : ℕ) : List (ℕ × ℕ × ℕ) :=
  (List.range (n_r - 2)).flatMap fun i =>
    (List.range n_phi).flatMap fun j =>
      [(ringIdx n_phi i j, ringIdx n_phi (i + 1) j, ringIdx n_phi (i + 1) (j + 1)),
       (ringIdx n_phi i j, ringIdx n_phi (i + 1) (j + 1), ringIdx n_phi i (j + 1))]

/-- Modelled from the spec: the central fan emits
`(centre, ring0[j+1], ring0[j])` for each `j`. -/
def fanSpecFaces (n_phi : ℕ) : List (ℕ × ℕ × ℕ) :=
  (List.range n_phi).map fun j =>
    (1, ringIdx n_phi 0 (j + 1), ringIdx n_phi 0 j)

/-- A face triple is valid for a mesh of `N` vertices when its 1-based
indices are in range and pairwise distinct. -/
def faceOK (N : ℕ) (f : ℕ × ℕ × ℕ) : Prop :=
  1 ≤ f.1 ∧ f.1 ≤ N ∧ 1 ≤ f.2.1 ∧ f.2.1 ≤ N ∧ 1 ≤ f.2.2 ∧ f.2.2 ≤ N ∧
    f.1 ≠ f.2.1 ∧ f.1 ≠ f.2.2 ∧ f.2.1 ≠ f.2.2

instance (N : ℕ) (f : ℕ × ℕ × ℕ) : Decidable (faceOK N f) := by
  unfold faceOK; infer_instance

/-! ## Helper lemmas -/

lemma flatMap_congr {α β : Type} {l : List α} {f g : α → List β}
    (h : ∀ a ∈ l, f a = g a) : l.flatMap f = l.flatMap g := by
  induction l with
  | nil => rfl
  | cons x xs ih =>
      simp only [List.flatMap_cons]
      rw [h x (List.mem_cons_self x xs), ih fun a ha => h a (List.mem_cons_of_mem x ha)]

lemma length_flatMap_const {α β : Type} (l : List α) (f : α → List β) (c : ℕ)
    (h : ∀ a ∈ l, (f a).length = c) : (l.flatMap f).length = l.length * c := by
  induction l with
  | nil => simp
  | cons x xs ih =>
      simp only [List.flatMap_cons, List.length_append, List.length_cons,
        h x (List.mem_cons_self x xs)]
      rw [ih fun a ha => h a (List.mem_cons_of_mem x ha)]
      ring

/-- Reduce `a % n` when `a < 2 * n`: either `a` itself or `a - n`. -/
lemma mod_two_cases (a n : ℕ) (h : a < 2 * n) :
    a % n = a ∧ a < n ∨ a % n = a - n ∧ n ≤ a := by
  rcases Nat.lt_or_ge a n with hlt | hge
  · exact Or.inl ⟨Nat.mod_eq_of_lt hlt, hlt⟩
  · refine Or.inr ⟨?_, hge⟩
    rw [Nat.mod_eq_sub_mod hge, Nat.mod_eq_of_lt (by omega)]

lemma vertices_length (n_r n_phi : ℕ) :
    (vertices n_r n_phi).length = 1 + (n_r - 1) * n_phi := by
  unfold vertices
  rw [List.length_cons,
    length_flatMap_const _ _ n_phi fun m _ => by
      rw [List.length_map, List.length_range]]
  rw [List.length_range]; omega

lemma stripFaces_length (n_r n_phi : ℕ) :
    (stripFaces n_r n_phi).length = 2 * ((n_r - 2) * n_phi) := by
  unfold stripFaces
  rw [length_flatMap_const _ _ (n_phi * 2) fun i _ => by
      rw [length_flatMap_const _ _ 2 fun j _ => by rfl, List.length_range]]
  rw [List.length_range]; ring

lemma mobiusFaces_length (n_r n_phi : ℕ) :
    (mobiusFaces n_r n_phi).length = 2 * n_phi := by
  unfold mobiusFaces
  rw [length_flatMap_const _ _ 2 fun j _ => by rfl, List.length_range]; ring

lemma fanFaces_length (n_phi : ℕ) : (fanFaces n_phi).length = n_phi := by
  unfold fanFaces
  rw [List.length_map, List.length_range]

/-! ## Claim theorems -/

/-- C5: for every even `n_phi ≥ 4` the opposite-index function
`opposite(j) = (j + n_phi/2) mod n_phi` used by the Mobius join is an
involution on `[0, n_phi)`. -/
theorem opposite_involution (n_phi j : ℕ) (he : Even n_phi) (h4 : 4 ≤ n_phi)
    (hj : j < n_phi) : opposite n_phi (opposite n_phi j) = j := by
  rw [Nat.even_iff] at he
  unfold opposite
  rcases mod_two_cases (j + n_phi / 2) n_phi (by omega) with ⟨h1, h1b⟩ | ⟨h1, h1b⟩
  · rw [h1]
    rcases mod_two_cases (j + n_phi / 2 + n_phi / 2) n_phi (by omega)
      with ⟨h2, h2b⟩ | ⟨h2, h2b⟩ <;> rw [h2] <;> omega
  · rw [h1]
    rcases mod_two_cases (j + n_phi / 2 - n_phi + n_phi / 2) n_phi (by omega)
      with ⟨h2, h2b⟩ | ⟨h2, h2b⟩ <;> rw [h2] <;> omega

/-- C5 witness: the involution at `n_phi = 6`, `j = 1`. -/
theorem opposite_involution_witness : opposite 6 (opposite 6 1) = 1 :=
  opposite_involution 6 1 (by decide) (by norm_num) (by norm_num)

/-- C3: for every valid configuration, `build` produces
`1 + (n_r - 1) * n_phi` vertices and
`2*(n_r-2)*n_phi + 2*n_phi + n_phi = 2*(n_r-1)*n_phi + n_phi` faces;
for `n_r = 4`, `n_phi = 6` that is 19 vertices and 42 faces. -/
theorem mesh_counts (n_r n_phi : ℕ) (h2 : 2 ≤ n_r) (he : Even n_phi)
    (h4 : 4 ≤ n_phi) :
    (vertices n_r n_phi).length = 1 + (n_r - 1) * n_phi ∧
    (faces n_r n_phi).length = 2 * (n_r - 2) * n_phi + 2 * n_phi + n_phi ∧
    2 * (n_r - 2) * n_phi + 2 * n_phi + n_phi = 2 * (n_r - 1) * n_phi + n_phi ∧
    (vertices 4 6).length = 19 ∧ (faces 4 6).length = 42 := by
  obtain ⟨t, rfl⟩ : ∃ t, n_r = t + 2 := ⟨n_r - 2, by omega⟩
  have hface : ∀ a b : ℕ, (faces a b).length = 2 * ((a - 2) * b) + 2 * b + b := by
    intro a b
    rw [faces, List.length_append, List.length_append, stripFaces_length,
      mobiusFaces_length, fanFaces_length]
  refine ⟨vertices_length _ _, ?_, ?_, ?_, ?_⟩
  · rw [hface]; ring
  · have e1 : (t + 2 - 2) = t := by omega
    have e2 : (t + 2 - 1) = t + 1 := by omega
    rw [e1, e2]; ring
  · rw [vertices_length]
  · rw [hface]

/-- C3 witness: the counts at `n_r = 4`, `n_phi = 6`. -/
theorem mesh_counts_witness :
    (vertices 4 6).length = 1 + (4 - 1) * 6 ∧
    (faces 4 6).length = 2 * (4 - 2) * 6 + 2 * 6 + 6 ∧
    2 * (4 - 2) * 6 + 2 * 6 + 6 = 2 * (4 - 1) * 6 + 6 ∧
    (vertices 4 6).length = 19 ∧ (faces 4 6).length = 42 :=
  mesh_counts 4 6 (by norm_num) (by decide) (by norm_num)

/-- C4: the Mobius join emits, for each `j`, exactly the two triangles
`(outer[j+1], outer[j+half], outer[j])` and
`(outer[j+1], outer[j+half+1], outer[j+half])` with `half = n_phi/2` and
angular indices modulo `n_phi`, and every index it emits lies on the
outermost ring itself (no separate next ring). -/
theorem mobius_join_spec (n_r n_phi : ℕ) (h2 : 2 ≤ n_r) (he : Even n_phi)
    (h4 : 4 ≤ n_phi) :
    mobiusFaces n_r n_phi = mobiusSpecFaces n_r n_phi ∧
    ∀ f ∈ mobiusFaces n_r n_phi, ∀ v ∈ [f.1, f.2.1, f.2.2],
      2 + (n_r - 2) * n_phi ≤ v ∧ v < 2 + (n_r - 2) * n_phi + n_phi := by
  constructor
  · unfold mobiusFaces mobiusSpecFaces
    refine flatMap_congr fun j hj => ?_
    have hjlt : j < n_phi := List.mem_range.mp hj
    simp only [outerIdx, ringIdx, Nat.mod_eq_of_lt hjlt]
  · intro f hf v hv
    simp only [mobiusFaces, List.mem_flatMap, List.mem_range] at hf
    obtain ⟨j, hjlt, hf⟩ := hf
    have hp : 0 < n_phi := by omega
    have hm1 : (j + 1) % n_phi < n_phi := Nat.mod_lt _ hp
    have hm2 : (j + n_phi / 2) % n_phi < n_phi := Nat.mod_lt _ hp
    have hm3 : (j + n_phi / 2 + 1) % n_phi < n_phi := Nat.mod_lt _ hp
    simp only [List.mem_cons, List.mem_singleton, List.not_mem_nil, or_false] at hf
    rcases hf with rfl | rfl <;>
      simp only [List.mem_cons, List.not_mem_nil, or_false] at hv <;>
      rcases hv with rfl | rfl | rfl <;> omega

/-- C4 witness: the Mobius faces of the `n_r = 4`, `n_phi = 6` mesh match
the spec list, and the first Mobius face indexes only the outer ring. -/
theorem mobius_join_spec_witness :
    mobiusFaces 4 6 = mobiusSpecFaces 4 6 ∧
    (2 + (4 - 2) * 6 ≤ (15:ℕ) ∧ (15:ℕ) < 2 + (4 - 2) * 6 + 6) := by
  have h := mobius_join_spec 4 6 (by norm_num) (by decide) (by norm_num)
  exact ⟨h.1, h.2 (15, 17, 14) (by decide) 15 (by decide)⟩

/-- C8: the radial strips split each quad into
`(inner[j], outer[j], outer[j+1])` and `(inner[j], outer[j+1], inner[j+1])`
for rings `i` and `i+1`, `i` up to the second-to-last ring, and the fan
emits `(centre, ring0[j+1], ring0[j])`, all exactly as the spec writes
them. -/
theorem strips_fan_spec (n_r n_phi : ℕ) (h2 : 2 ≤ n_r) (he : Even n_phi)
    (h4 : 4 ≤ n_phi) :
    stripFaces n_r n_phi = stripSpecFaces n_r n_phi ∧
    fanFaces n_phi = fanSpecFaces n_phi := by
  constructor
  · unfold stripFaces stripSpecFaces
    refine flatMap_congr fun i _ => flatMap_congr fun j hj => ?_
    have hjlt : j < n_phi := List.mem_range.mp hj
    have e1 : (i + 1) * n_phi = i * n_phi + n_phi := by ring
    simp only [ringIdx, Nat.mod_eq_of_lt hjlt, e1, Nat.add_assoc]
  · unfold fanFaces fanSpecFaces
    refine List.map_congr_left fun j hj => ?_
    have hjlt : j < n_phi := List.mem_range.mp hj
    simp only [ringIdx, Nat.mod_eq_of_lt hjlt, Nat.zero_mul, Nat.add_zero]

/-- C8 witness: the strip and fan faces of the `n_r = 4`, `n_phi = 6`
mesh match the spec lists. -/
theorem strips_fan_spec_witness :
    stripFaces 4 6 = stripSpecFaces 4 6 ∧ fanFaces 6 = fanSpecFaces 6 :=
  strips_fan_spec 4 6 (by norm_num) (by decide) (by norm_num)

/-- C6: in every valid configuration each emitted face references three
in-range 1-based vertex indices that are pairwise distinct, so no
degenerate triangle is produced. -/
theorem faces_ok (n_r n_phi : ℕ) (h2 : 2 ≤ n_r) (he : Even n_phi)
    (h4 : 4 ≤ n_phi) :
    ∀ f ∈ faces n_r n_phi, faceOK (1 + (n_r - 1) * n_phi) f := by
  rw [Nat.even_iff] at he
  intro f hf
  obtain ⟨t, rfl⟩ : ∃ t, n_r = t + 2 := ⟨n_r - 2, by omega⟩
  have e2 : t + 2 - 2 = t := by omega
  have e1 : t + 2 - 1 = t + 1 := by omega
  rw [faces, List.mem_append, List.mem_append] at hf
  have p2 : (t + 1) * n_phi = t * n_phi + n_phi := by ring
  rw [e1]
  rcases hf with (hs | hm) | hfan
  · simp only [stripFaces, e2, List.mem_flatMap, List.mem_range,
      List.mem_cons, List.not_mem_nil, or_false] at hs
    obtain ⟨i, hi, j, hj, hmem⟩ := hs
    have p3 : i * n_phi + n_phi ≤ t * n_phi := by
      have h' : (i + 1) * n_phi ≤ t * n_phi := Nat.mul_le_mul_right _ (by omega)
      have e' : (i + 1) * n_phi = i * n_phi + n_phi := by ring
      omega
    rcases mod_two_cases (j + 1) n_phi (by omega) with ⟨hm1, hb1⟩ | ⟨hm1, hb1⟩ <;>
      rcases hmem with rfl | rfl <;> simp only [faceOK] <;> omega
  · simp only [mobiusFaces, e2, List.mem_flatMap, List.mem_range,
      List.mem_cons, List.not_mem_nil, or_false] at hm
    obtain ⟨j, hj, hmem⟩ := hm
    rcases mod_two_cases (j + 1) n_phi (by omega) with ⟨hm1, hb1⟩ | ⟨hm1, hb1⟩ <;>
      rcases mod_two_cases (j + n_phi / 2) n_phi (by omega)
        with ⟨hm2, hb2⟩ | ⟨hm2, hb2⟩ <;>
      rcases mod_two_cases (j + n_phi / 2 + 1) n_phi (by omega)
        with ⟨hm3, hb3⟩ | ⟨hm3, hb3⟩ <;>
      rcases hmem with rfl | rfl <;> simp only [faceOK] <;> omega
  · simp only [fanFaces, List.mem_map, List.mem_range] at hfan
    obtain ⟨j, hj, rfl⟩ := hfan
    rcases mod_two_cases (j + 1) n_phi (by omega) with ⟨hm1, hb1⟩ | ⟨hm1, hb1⟩ <;>
      simp only [faceOK] <;> omega

/-- C6 witness: the first strip face of the `n_r = 4`, `n_phi = 6` mesh
is valid for its 19 vertices. -/
theorem faces_ok_witness : faceOK (1 + (4 - 1) * 6) (2, 8, 9) :=
  faces_ok 4 6 (by norm_num) (by decide) (by norm_num) (2, 8, 9) (by decide)

/-- C10: in every valid configuration every 1-based vertex index up to
`1 + (n_r - 1) * n_phi` appears in some emitted face; for `n_r = 2` the
radial-strip step emits no face at all (the single ring is closed by the
fan and the Mobius join alone). -/
theorem no_orphan_vertices (n_r n_phi : ℕ) (h2 : 2 ≤ n_r) (he : Even n_phi)
    (h4 : 4 ≤ n_phi) :
    (∀ v, 1 ≤ v → v ≤ 1 + (n_r - 1) * n_phi →
      ∃ f ∈ faces n_r n_phi, v = f.1 ∨ v = f.2.1 ∨ v = f.2.2) ∧
    (n_r = 2 → stripFaces n_r n_phi = []) := by
  constructor
  · intro v h1 hN
    obtain ⟨t, rfl⟩ : ∃ t, n_r = t + 2 := ⟨n_r - 2, by omega⟩
    have e2 : t + 2 - 2 = t := by omega
    have e1 : t + 2 - 1 = t + 1 := by omega
    rw [e1] at hN
    have hp : 0 < n_phi := by omega
    rcases Nat.lt_or_ge v 2 with hv2 | hv2
    · -- the centre vertex, first component of the first fan face
      have hv : v = 1 := by omega
      refine ⟨(1, 2 + (0 + 1) % n_phi, 2 + 0), ?_, Or.inl hv⟩
      rw [faces]
      simp only [List.mem_append]
      refine Or.inr ?_
      simp only [fanFaces, List.mem_map, List.mem_range]
      exact ⟨0, hp, rfl⟩
    · rcases Nat.lt_or_ge (v - 2) n_phi with hu | hu
      · -- a ring-0 vertex, covered by its fan face
        refine ⟨(1, 2 + (v - 2 + 1) % n_phi, 2 + (v - 2)), ?_, ?_⟩
        · rw [faces]
          simp only [List.mem_append]
          refine Or.inr ?_
          simp only [fanFaces, List.mem_map, List.mem_range]
          exact ⟨v - 2, hu, rfl⟩
        · right; right; simp only; omega
      · -- a vertex of ring `i + 1`: the `b` corner of strip cell `(i, j)`
        have hmul : (t + 1) * n_phi = t * n_phi + n_phi := by ring
        have hlt : v - 2 - n_phi < t * n_phi := by omega
        have hi : (v - 2 - n_phi) / n_phi < t :=
          (Nat.div_lt_iff_lt_mul hp).mpr (by omega)
        have hdm : n_phi * ((v - 2 - n_phi) / n_phi) + (v - 2 - n_phi) % n_phi
            = v - 2 - n_phi := Nat.div_add_mod _ _
        have hjn : (v - 2 - n_phi) % n_phi < n_phi := Nat.mod_lt _ hp
        refine ⟨(2 + (v - 2 - n_phi) / n_phi * n_phi + (v - 2 - n_phi) % n_phi,
                 2 + (v - 2 - n_phi) / n_phi * n_phi + n_phi + (v - 2 - n_phi) % n_phi,
                 2 + (v - 2 - n_phi) / n_phi * n_phi + n_phi +
                   ((v - 2 - n_phi) % n_phi + 1) % n_phi), ?_, ?_⟩
        · rw [faces]
          simp only [List.mem_append]
          refine Or.inl (Or.inl ?_)
          simp only [stripFaces, e2, List.mem_flatMap, List.mem_range,
            List.mem_cons, List.not_mem_nil, or_false]
          exact ⟨(v - 2 - n_phi) / n_phi, hi, (v - 2 - n_phi) % n_phi, hjn,
            Or.inl rfl⟩
        · right; left
          simp only
          have e' : n_phi * ((v - 2 - n_phi) / n_phi)
              = (v - 2 - n_phi) / n_phi * n_phi := by ring
          omega
  · intro h
    subst h
    simp [stripFaces]

/-- C10 witness: in the minimal `n_r = 2`, `n_phi = 4` mesh, vertex 5 is
referenced by some face although no strip face exists. -/
theorem no_orphan_vertices_witness :
    (∃ f ∈ faces 2 4, 5 = f.1 ∨ 5 = f.2.1 ∨ 5 = f.2.2) ∧
    stripFaces 2 4 = [] :=
  ⟨(no_orphan_vertices 2 4 (by norm_num) (by decide) (by norm_num)).1 5
      (by norm_num) (by norm_num),
   (no_orphan_vertices 2 4 (by norm_num) (by decide) (by norm_num)).2 rfl⟩

/-! ## Evaluator facts at the centre `w = 0` -/

lemma denom_zero : denom 0 = -1 := by simp [denom]

lemma g1_zero : g1 0 = 0 := by simp [g1]

lemma g2_zero : g2 0 = 0 := by simp [g2]

lemma g3_zero : g3 0 = -(1/2) := by
  rw [g3, denom_zero]
  norm_num

lemma gnorm_zero : gnorm 0 = 1/4 := by
  rw [gnorm, g1_zero, g2_zero, g3_zero]
  norm_num

lemma denom_conj (w : ℂ) :
    (starRingEnd ℂ) (denom w) = denom ((starRingEnd ℂ) w) := by
  simp [denom, map_add, map_sub, map_mul, map_pow, Complex.conj_ofReal]

/-- Wherever the denominator is nonzero the norm `g` is nonzero: if
`g = 0` then `g1 = g2 = 0` forces `w * conj(denom) + conj(w)^5 * denom`
to vanish, so `|w| = |w|^5`, i.e. `w = 0` (where `g = 1/4`) or
`|w| = 1`, where that expression equals `2 * sqrt(5) / w^2`, which is
nonzero. -/
lemma gnorm_ne_zero_of_denom (w : ℂ) (hd : denom w ≠ 0) : gnorm w ≠ 0 := by
  intro h0
  rw [gnorm] at h0
  have hg1 : g1 w = 0 := by
    nlinarith [sq_nonneg (g1 w), sq_nonneg (g2 w), sq_nonneg (g3 w)]
  have hg2 : g2 w = 0 := by
    nlinarith [sq_nonneg (g1 w), sq_nonneg (g2 w), sq_nonneg (g3 w)]
  have hA : (w * (1 - w ^ 4) / denom w).im = 0 := by
    rw [g1] at hg1
    linarith
  have hB : (w * (1 + w ^ 4) / denom w).re = 0 := by
    rw [g2] at hg2
    linarith
  have hcd : (starRingEnd ℂ) (denom w) ≠ 0 := by simpa using hd
  have e1 : (starRingEnd ℂ) w * (1 - (starRingEnd ℂ) w ^ 4) * denom w
      = w * (1 - w ^ 4) * (starRingEnd ℂ) (denom w) := by
    have hz : (starRingEnd ℂ) (w * (1 - w ^ 4) / denom w)
        = w * (1 - w ^ 4) / denom w := Complex.conj_eq_iff_im.mpr hA
    rw [map_div₀, map_mul, map_sub, map_one, map_pow] at hz
    exact (div_eq_div_iff hcd hd).mp hz
  have e2 : (starRingEnd ℂ) w * (1 + (starRingEnd ℂ) w ^ 4) * denom w
      = -(w * (1 + w ^ 4) * (starRingEnd ℂ) (denom w)) := by
    have hz : (starRingEnd ℂ) (w * (1 + w ^ 4) / denom w)
        = -(w * (1 + w ^ 4) / denom w) := by
      apply Complex.ext
      · rw [Complex.conj_re, Complex.neg_re, hB, neg_zero]
      · rw [Complex.conj_im, Complex.neg_im]
    rw [map_div₀, map_mul, map_add, map_one, map_pow, ← neg_div] at hz
    have h' := (div_eq_div_iff hcd hd).mp hz
    linear_combination h'
  have hstar : w * (starRingEnd ℂ) (denom w) + (starRingEnd ℂ) w ^ 5 * denom w
      = 0 := by
    linear_combination (e2 - e1) / 2
  have hmod : Complex.abs w * Complex.abs (denom w)
      = Complex.abs w ^ 5 * Complex.abs (denom w) := by
    have h' : w * (starRingEnd ℂ) (denom w)
        = -((starRingEnd ℂ) w ^ 5 * denom w) :=
      eq_neg_of_add_eq_zero_left hstar
    have h'' := congrArg Complex.abs h'
    simpa [map_mul, map_pow, Complex.abs_conj] using h''
  have habsd : Complex.abs (denom w) ≠ 0 := Complex.abs.ne_zero hd
  have ht : Complex.abs w = Complex.abs w ^ 5 := mul_right_cancel₀ habsd hmod
  rcases eq_or_ne (Complex.abs w) 0 with hz0 | hz0
  · have hw0 : w = 0 := by simpa using hz0
    have hq : gnorm (0:ℂ) = 0 := by
      rw [hw0] at h0
      rw [gnorm]
      exact h0
    rw [gnorm_zero] at hq
    norm_num at hq
  · have h4 : Complex.abs w ^ 4 = 1 := by
      have h5 : Complex.abs w * 1 = Complex.abs w * Complex.abs w ^ 4 := by
        rw [mul_one]
        nth_rewrite 1 [ht]
        ring
      exact (mul_left_cancel₀ hz0 h5).symm
    have h1 : Complex.abs w = 1 :=
      (pow_left_inj₀ (Complex.abs.nonneg w) zero_le_one (by norm_num : (4:ℕ) ≠ 0)).mp
        (by rw [h4]; norm_num)
    have hw0 : w ≠ 0 := by
      intro h
      rw [h] at h1
      simp at h1
    have hinv : (starRingEnd ℂ) w = w⁻¹ := by
      rw [Complex.inv_def, Complex.normSq_eq_abs, h1]
      simp
    have hkey : w * denom w⁻¹ + (w⁻¹) ^ 5 * denom w
        = 2 * (Real.sqrt 5 : ℂ) * (w⁻¹) ^ 2 := by
      rw [denom, denom]
      field_simp
      ring
    rw [denom_conj, hinv, hkey] at hstar
    have h5 : (Real.sqrt 5 : ℂ) ≠ 0 := by
      rw [Complex.ofReal_ne_zero]
      exact Real.sqrt_ne_zero'.mpr (by norm_num)
    exact (mul_ne_zero (mul_ne_zero two_ne_zero h5)
      (pow_ne_zero 2 (inv_ne_zero hw0))) hstar

/-- C7: the evaluator at `w = 0` gives exactly `(0, 0, -2)` through
`denom = -1`, `g1 = g2 = 0`, `g3 = -1/2`, `g = 1/4`; this point heads the
vertex list (1-based index 1), and no grid sample is `w = 0` (grid radii
are strictly positive), so the centre is not obtained by grid sampling. -/
theorem centre_vertex :
    xyz 0 = (0, 0, -2) ∧ denom 0 = -1 ∧ g1 0 = 0 ∧ g2 0 = 0 ∧
    g3 0 = -(1/2) ∧ gnorm 0 = 1/4 ∧
    (∀ n_r n_phi, (vertices n_r n_phi).head? = some (xyz 0)) ∧
    (∀ n_r n_phi m k, 2 ≤ n_r → 1 ≤ m → sample n_r n_phi m k ≠ 0) := by
  refine ⟨?_, denom_zero, g1_zero, g2_zero, g3_zero, gnorm_zero,
    fun _ _ => rfl, ?_⟩
  · rw [xyz, g1_zero, g2_zero, g3_zero, gnorm_zero]
    norm_num
  · intro n_r n_phi m k h2 hm1
    have hr0 : (0:ℝ) < (m : ℝ) / ((n_r - 1 : ℕ) : ℝ) := by
      apply div_pos
      · exact_mod_cast Nat.lt_of_lt_of_le Nat.zero_lt_one (by exact_mod_cast hm1)
      · have h' : 1 ≤ n_r - 1 := by omega
        exact_mod_cast Nat.lt_of_lt_of_le Nat.zero_lt_one (by exact_mod_cast h')
    exact mul_ne_zero (Complex.ofReal_ne_zero.mpr hr0.ne')
      (Complex.exp_ne_zero _)

/-- C7 witness: the first grid sample of the `n_r = 4`, `n_phi = 6` mesh
is not the centre point `w = 0`. -/
theorem centre_vertex_witness : sample 4 6 1 0 ≠ 0 :=
  centre_vertex.2.2.2.2.2.2.2 4 6 1 0 (by norm_num) (by norm_num)

/-- C2 counterexample: the claim quantifies over every complex `w` with
`|w| ≤ 1`, but the real point `w = ((3 - sqrt 5)/2)^(1/3)` lies in the
closed unit disk and makes the denominator `w^6 + sqrt(5) w^3 - 1`
exactly zero, so the evaluator does divide by zero somewhere on the
claimed domain. -/
theorem evaluator_counterexample :
    Complex.abs ((((3 - Real.sqrt 5) / 2) ^ ((1:ℝ)/3) : ℝ) : ℂ) ≤ 1 ∧
    denom ((((3 - Real.sqrt 5) / 2) ^ ((1:ℝ)/3) : ℝ) : ℂ) = 0 := by
  have hs : Real.sqrt 5 ^ 2 = 5 := Real.sq_sqrt (by norm_num)
  have hs0 : 0 ≤ Real.sqrt 5 := Real.sqrt_nonneg 5
  have hs3 : Real.sqrt 5 < 3 := by nlinarith
  have hs2 : 2 < Real.sqrt 5 := by nlinarith
  have hu0 : 0 < (3 - Real.sqrt 5) / 2 := by linarith
  have hu1 : (3 - Real.sqrt 5) / 2 ≤ 1 := by linarith
  have hx0 : 0 ≤ ((3 - Real.sqrt 5) / 2) ^ ((1:ℝ)/3) := Real.rpow_nonneg hu0.le _
  have hx3 : (((3 - Real.sqrt 5) / 2) ^ ((1:ℝ)/3)) ^ (3:ℕ)
      = (3 - Real.sqrt 5) / 2 := by
    rw [← Real.rpow_natCast (((3 - Real.sqrt 5) / 2) ^ ((1:ℝ)/3)) 3,
      ← Real.rpow_mul hu0.le]
    norm_num
  constructor
  · rw [Complex.abs_ofReal, abs_of_nonneg hx0]
    exact Real.rpow_le_one hu0.le hu1 (by norm_num)
  · rw [denom]
    have h6 : ((((3 - Real.sqrt 5) / 2) ^ ((1:ℝ)/3) : ℝ) : ℂ) ^ 6
        = ((((3 - Real.sqrt 5) / 2 : ℝ)) : ℂ) ^ 2 := by
      rw [show (6:ℕ) = 3 * 2 from rfl, pow_mul]
      norm_cast
      rw [hx3]
    have h3 : ((((3 - Real.sqrt 5) / 2) ^ ((1:ℝ)/3) : ℝ) : ℂ) ^ 3
        = ((((3 - Real.sqrt 5) / 2 : ℝ)) : ℂ) := by
      norm_cast
    have hsc : ((Real.sqrt 5 : ℝ) : ℂ) ^ 2 = 5 := by norm_cast
    rw [h6, h3]
    push_cast
    linear_combination (-1/4 : ℂ) * hsc

/-- C2 (amended): no division by zero occurs at any point the code
actually evaluates: at every grid sample
`(m/(n_r-1)) * exp(2*pi*i*k/n_phi)` both the denominator
`w^6 + sqrt(5) w^3 - 1` and the norm `g = g1^2 + g2^2 + g3^2` are
nonzero — the in-disk zeros of the denominator have irrational radius
while grid radii are rational, and `g` vanishes nowhere the denominator
is nonzero — and at the centre `w = 0` the denominator is `-1` and
`g = 1/4`. -/
theorem evaluator_samples_ok (n_r n_phi m k : ℕ) (h2 : 2 ≤ n_r)
    (hm1 : 1 ≤ m) (hm2 : m ≤ n_r - 1) :
    denom (sample n_r n_phi m k) ≠ 0 ∧ gnorm (sample n_r n_phi m k) ≠ 0 ∧
    denom 0 = -1 ∧ gnorm 0 = 1/4 ∧
    (∀ w : ℂ, denom w ≠ 0 → gnorm w ≠ 0) := by
  have hden : denom (sample n_r n_phi m k) ≠ 0 := ?_
  · exact ⟨hden, gnorm_ne_zero_of_denom _ hden, denom_zero, gnorm_zero,
      gnorm_ne_zero_of_denom⟩
  intro hd
  have hs : Real.sqrt 5 ^ 2 = 5 := Real.sq_sqrt (by norm_num)
  have hs0 : 0 ≤ Real.sqrt 5 := Real.sqrt_nonneg 5
  have hs3 : Real.sqrt 5 < 3 := by nlinarith
  have hden0 : (0:ℝ) < ((n_r - 1 : ℕ) : ℝ) := by
    have h' : 1 ≤ n_r - 1 := by omega
    exact_mod_cast Nat.lt_of_lt_of_le Nat.zero_lt_one (by exact_mod_cast h')
  have hr0 : (0:ℝ) < (m : ℝ) / ((n_r - 1 : ℕ) : ℝ) := by
    apply div_pos _ hden0
    exact_mod_cast Nat.lt_of_lt_of_le Nat.zero_lt_one (by exact_mod_cast hm1)
  have hr1 : (m : ℝ) / ((n_r - 1 : ℕ) : ℝ) ≤ 1 := by
    rw [div_le_one hden0]
    exact_mod_cast hm2
  have habs : Complex.abs (sample n_r n_phi m k)
      = (m : ℝ) / ((n_r - 1 : ℕ) : ℝ) := by
    rw [sample, map_mul, Complex.abs_ofReal, abs_of_nonneg hr0.le,
      mul_comm Complex.I, Complex.abs_exp_ofReal_mul_I, mul_one]
  have hsc : ((Real.sqrt 5 : ℝ) : ℂ) ^ 2 = 5 := by norm_cast
  have hfac : denom (sample n_r n_phi m k) =
      (sample n_r n_phi m k ^ 3 - (((3 - Real.sqrt 5) / 2 : ℝ) : ℂ)) *
      (sample n_r n_phi m k ^ 3 - (((-3 - Real.sqrt 5) / 2 : ℝ) : ℂ)) := by
    rw [denom]
    push_cast
    linear_combination (-1/4 : ℂ) * hsc
  rw [hfac] at hd
  rcases mul_eq_zero.mp hd with h | h <;> rw [sub_eq_zero] at h <;>
    have habs3 := congrArg Complex.abs h <;>
    rw [map_pow, habs, Complex.abs_ofReal] at habs3
  · rw [abs_of_nonneg (by linarith : (0:ℝ) ≤ (3 - Real.sqrt 5) / 2)] at habs3
    refine (by norm_num : Nat.Prime 5).irrational_sqrt
      ⟨3 - 2 * ((m : ℚ) / ((n_r - 1 : ℕ) : ℚ)) ^ 3, ?_⟩
    push_cast
    linarith [habs3]
  · rw [abs_of_nonpos (by linarith : (-3 - Real.sqrt 5) / 2 ≤ 0)] at habs3
    have hcube : ((m : ℝ) / ((n_r - 1 : ℕ) : ℝ)) ^ 3 ≤ 1 :=
      pow_le_one₀ hr0.le hr1
    nlinarith [habs3]

/-- C2 witness: the innermost sample of the `n_r = 4`, `n_phi = 6` grid
has a nonzero denominator, and the centre values are nonzero. -/
theorem evaluator_samples_ok_witness :
    denom (sample 4 6 1 0) ≠ 0 ∧ gnorm (sample 4 6 1 0) ≠ 0 ∧
    denom 0 = -1 ∧ gnorm 0 = 1/4 ∧
    (∀ w : ℂ, denom w ≠ 0 → gnorm w ≠ 0) :=
  evaluator_samples_ok 4 6 1 0 (by norm_num) (by norm_num) (by norm_num)

/-! ## Validation behaviour -/

lemma le_pyRound_of_floor (q : ℚ) : ⌊q⌋ ≤ pyRound q := by
  unfold pyRound
  split_ifs <;> omega

lemma map_error_iff {α β γ : Type} (f : α → β) (x : Except γ α) (e : γ) :
    x.map f = .error e ↔ x = .error e := by
  cases x <;> simp [Except.map]

/-- C1 counterexample: at `resolution = 2`, `ratio = 9/5` the derived
`n_phi = round(9/5 * 2) = 4` is an even integer `≥ 4` and
`resolution ≥ 2`, yet the constructor raises: the code compares the raw
product `3.6` against `4` before rounding. -/
theorem validation_counterexample :
    2 ≤ (2:ℤ) ∧ pyRound ((9/5 : ℚ) * ((2:ℤ):ℚ)) = 4 ∧
    (4:ℤ) % 2 = 0 ∧ 4 ≤ (4:ℤ) ∧
    validate 2 (9/5) = Except.error nphiMsg := by
  have hp : pyRound ((9/5 : ℚ) * ((2:ℤ):ℚ)) = 4 := by
    unfold pyRound
    norm_num
  refine ⟨by norm_num, hp, by norm_num, by norm_num, ?_⟩
  rw [validate, if_neg (by norm_num), if_pos (Or.inl (by norm_num))]

/-- C1 (amended): construction raises exactly when `resolution < 2`, or
the raw product `ratio * resolution` is `< 4` (compared before
rounding), or `round(ratio * resolution)` is odd; on success the stored
sizes satisfy `n_r = resolution ≥ 2` and `n_phi = round(ratio *
resolution)` even and `≥ 4`; the pipeline yields an error exactly when
validation does, so no mesh accompanies an error. -/
theorem validation_iff (res : ℤ) ( rat : ℚ) :
    ((∃ e, validate res rat = .error e) ↔
      res < 2 ∨ rat * res < 4 ∨ pyRound (rat * res) % 2 ≠ 0) ∧
    (∀ c, validate res rat = .ok c →
      c.n_r = res.toNat ∧ c.n_phi = (pyRound (rat * res)).toNat ∧
      2 ≤ c.n_r ∧ 4 ≤ c.n_phi ∧ c.n_phi % 2 = 0) ∧
    (∀ e, generate res rat = .error e ↔ validate res rat = .error e) := by
  refine ⟨?_, ?_, fun e => by simp only [generate]; exact map_error_iff _ _ _⟩
  · by_cases h1 : res < 2
    · simp only [validate, if_pos h1]
      exact ⟨fun _ => Or.inl h1, fun _ => ⟨resolutionMsg, rfl⟩⟩
    · by_cases h2 : rat * res < 4 ∨ pyRound (rat * res) % 2 ≠ 0
      · simp only [validate, if_neg h1, if_pos h2]
        refine ⟨fun _ => ?_, fun _ => ⟨nphiMsg, rfl⟩⟩
        rcases h2 with h | h
        exacts [Or.inr (Or.inl h), Or.inr (Or.inr h)]
      · simp only [validate, if_neg h1, if_neg h2]
        constructor
        · rintro ⟨e, he⟩
          exact Except.noConfusion he
        · intro hcond
          rcases not_or.mp h2 with ⟨h2a, h2b⟩
          rcases hcond with h | h | h
          · exact absurd h h1
          · exact absurd h h2a
          · exact absurd h h2b
  · intro c hc
    by_cases h1 : res < 2
    · rw [validate, if_pos h1] at hc
      exact Except.noConfusion hc
    · by_cases h2 : rat * res < 4 ∨ pyRound (rat * res) % 2 ≠ 0
      · rw [validate, if_neg h1, if_pos h2] at hc
        exact Except.noConfusion hc
      · rw [validate, if_neg h1, if_neg h2] at hc
        obtain rfl : (⟨res.toNat, (pyRound (rat * res)).toNat⟩ : Config) = c :=
          Except.ok.inj hc
        rcases not_or.mp h2 with ⟨h2a, h2b⟩
        push_neg at h1 h2a
        have hfl : (4:ℤ) ≤ ⌊rat * (res:ℚ)⌋ := Int.le_floor.mpr (by exact_mod_cast h2a)
        have hpr : ⌊rat * (res:ℚ)⌋ ≤ pyRound (rat * res) := le_pyRound_of_floor _
        have hmod : pyRound (rat * res) % 2 = 0 := not_not.mp h2b
        refine ⟨rfl, rfl, ?_, ?_, ?_⟩ <;> simp only <;> omega

/-- C1 witness: at `resolution = 10`, `ratio = 1` validation succeeds and
the stored sizes are `n_r = 10`, `n_phi = 10`, even and in range. -/
theorem validation_iff_witness :
    validate 10 1 = Except.ok ⟨10, 10⟩ ∧
    ((⟨10, 10⟩ : Config).n_r = (10:ℤ).toNat ∧
     (⟨10, 10⟩ : Config).n_phi = (pyRound ((1:ℚ) * ((10:ℤ):ℚ))).toNat ∧
     2 ≤ (⟨10, 10⟩ : Config).n_r ∧ 4 ≤ (⟨10, 10⟩ : Config).n_phi ∧
     (⟨10, 10⟩ : Config).n_phi % 2 = 0) := by
  have hp : pyRound ((1:ℚ) * ((10:ℤ):ℚ)) = 10 := by
    unfold pyRound
    norm_num
  have hok : validate 10 1 = Except.ok ⟨10, 10⟩ := by
    rw [validate, if_neg (by norm_num), if_neg (by rw [hp]; push_neg; norm_num)]
    rw [hp]
    rfl
  exact ⟨hok, (validation_iff 10 1).2.1 ⟨10, 10⟩ hok⟩

/-- C9 counterexample: two invalid inputs with different offending
computed values (`n_phi = 3` and `n_phi = 5`) raise the identical fixed
message, which contains neither digit: the error does not include the
offending computed value. -/
theorem errormsg_counterexample :
    validate 10 (3/10) = Except.error nphiMsg ∧
    validate 10 (1/2) = Except.error nphiMsg ∧
    pyRound ((3/10 : ℚ) * ((10:ℤ):ℚ)) = 3 ∧
    pyRound ((1/2 : ℚ) * ((10:ℤ):ℚ)) = 5 ∧
    ¬ '3' ∈ nphiMsg.data ∧ ¬ '5' ∈ nphiMsg.data := by
  have hp5 : pyRound ((1/2 : ℚ) * ((10:ℤ):ℚ)) = 5 := by
    unfold pyRound
    norm_num
  refine ⟨?_, ?_, by unfold pyRound; norm_num, hp5, by decide, by decide⟩
  · rw [validate, if_neg (by norm_num), if_pos (Or.inl (by norm_num))]
  · rw [validate, if_neg (by norm_num),
      if_pos (Or.inr (by rw [hp5]; norm_num))]

/-- C9 (amended): the raised error does identify which constraint was
violated — the two constraints produce two distinct fixed messages, each
raised exactly under its constraint — but the message is a constant
string that does not include the offending computed value. -/
theorem errormsg_description (res : ℤ) ( rat : ℚ) :
    (validate res rat = .error resolutionMsg ↔ res < 2) ∧
    (validate res rat = .error nphiMsg ↔
      2 ≤ res ∧ (rat * res < 4 ∨ pyRound (rat * res) % 2 ≠ 0)) ∧
    resolutionMsg ≠ nphiMsg := by
  have hmsg : resolutionMsg ≠ nphiMsg := by decide
  by_cases h1 : res < 2
  · simp only [validate, if_pos h1]
    refine ⟨⟨fun _ => h1, fun _ => trivial⟩, ⟨?_, ?_⟩, hmsg⟩
    · intro he
      exact (hmsg (Except.error.inj he)).elim
    · rintro ⟨hr, -⟩
      omega
  · by_cases h2 : rat * res < 4 ∨ pyRound (rat * res) % 2 ≠ 0
    · simp only [validate, if_neg h1, if_pos h2]
      refine ⟨⟨?_, fun hr => absurd hr h1⟩,
        ⟨fun _ => ⟨by omega, h2⟩, fun _ => trivial⟩, hmsg⟩
      intro he
      exact (hmsg (Except.error.inj he).symm).elim
    · simp only [validate, if_neg h1, if_neg h2]
      refine ⟨⟨fun he => Except.noConfusion he, fun hr => absurd hr h1⟩,
        ⟨fun he => Except.noConfusion he, ?_⟩, hmsg⟩
      rintro ⟨-, hcond⟩
      exact absurd hcond h2

/-- C9 witness: at `resolution = 1` the raised message is the
resolution-constraint message. -/
theorem errormsg_description_witness :
    validate 1 1 = Except.error resolutionMsg :=
  (errormsg_description 1 1).1.mpr (by norm_num)

end BoysSurface
